import Mathlib

/-
Verification of the escape-normalization script `src/fix_escaping.py`.

The whole observable behaviour of the script is the single line

    new_content = re.sub(r"'\\fa", r"'\\\\fa", content)

followed by writing `new_content` back to the file.  The regex pattern
`'\\fa` denotes the literal four-character text  quote, backslash, `f`, `a`
and the replacement `'\\\\fa` denotes  quote, backslash, backslash, `f`, `a`.
Since the pattern is a fixed string with no regex metacharacters, `re.sub`
performs a leftmost, non-overlapping replacement of every occurrence of that
four-character text.  Documents are modelled as lists of characters.
-/

/-- The four-character text matched by the regex `r"'\\fa"` in
`src/fix_escaping.py`: a single quote, one literal backslash, then `fa`. -/
def pat : List Char := ['\'', '\\', 'f', 'a']

/-- The five-character replacement text denoted by `r"'\\\\fa"` in
`src/fix_escaping.py`: a single quote, two literal backslashes, then `fa`. -/
def rep : List Char := ['\'', '\\', '\\', 'f', 'a']

/-- The embedding of `re.sub(r"'\\fa", r"'\\\\fa", content)`: scan the
document left to right; at each position where the next four characters are
`pat`, emit `rep` and continue after the match; otherwise copy the character.
This is exactly Python's `re.sub` on a fixed four-character pattern. -/
def fixEsc : List Char → List Char
  | '\'' :: '\\' :: 'f' :: 'a' :: rest => '\'' :: '\\' :: '\\' :: 'f' :: 'a' :: fixEsc rest
  | c :: cs => c :: fixEsc cs
  | [] => []

/-- The number of substitutions the scan of `fixEsc` performs (what
`re.subn` would report as the substitution count for the same call). -/
def cntFa : List Char → Nat
  | '\'' :: '\\' :: 'f' :: 'a' :: rest => cntFa rest + 1
  | _ :: cs => cntFa cs
  | [] => 0

/-- The corrected document: the value bound to `new_content` in
`src/fix_escaping.py`. -/
def new_content (content : List Char) : List Char := fixEsc content

/-- Modelled from the spec: the `occurrences_changed` field of the
Correction Result.  The script itself never reports a count (it only writes
`new_content` back); the natural count for its `re.sub` call is the number
of substitutions performed, which is what this returns. -/
def occurrences_changed (content : List Char) : Nat := cntFa content

/-- Modelled from the spec: the diagnostic channel of section 7 (irregular
occurrences surfaced to the caller).  The script in `src/fix_escaping.py`
has no reporting of any kind — it returns nothing and prints nothing — so
the list of surfaced diagnostics is empty for every document. -/
def surfaced_diagnostics (_content : List Char) : List (List Char) := []

/-- Decides whether the four-character pattern `pat` occurs anywhere in the
document (as a contiguous run of characters). -/
def hasPat : List Char → Bool
  | '\'' :: '\\' :: 'f' :: 'a' :: _ => true
  | _ :: cs => hasPat cs
  | [] => false

/-- Decides whether a list of characters contains no single-quote character. -/
def noQuote : List Char → Bool
  | [] => true
  | c :: cs => decide (c ≠ '\'') && noQuote cs

/-- The number of positions of the document at which the four-character
pattern `pat` occurs (every position is inspected; occurrences of `pat`
cannot overlap, since no proper suffix of `pat` is a prefix of `pat`). -/
def countPat : List Char → Nat
  | [] => 0
  | c :: cs => (if (c :: cs).take 4 = pat then 1 else 0) + countPat cs

/-- Splits the document at the matches of the scan of `fixEsc`: the result
is the list of maximal unmatched segments, in order, so that the document is
the segments joined by `pat` and the corrected document is the same segments
joined by `rep`. -/
def splitFa : List Char → List (List Char)
  | '\'' :: '\\' :: 'f' :: 'a' :: rest => [] :: splitFa rest
  | c :: cs =>
    match splitFa cs with
    | s :: ss => (c :: s) :: ss
    | [] => [[c]]
  | [] => [[]]

/-- Joins a list of segments, inserting `sep` between consecutive segments. -/
def joinWith (sep : List Char) : List (List Char) → List Char
  | [] => []
  | [s] => s
  | s :: t :: ss => s ++ sep ++ joinWith sep (t :: ss)

/-- The start positions, in increasing document order, of the matches that
the scan of `fixEsc` replaces. -/
def matchPositions : List Char → List Nat
  | '\'' :: '\\' :: 'f' :: 'a' :: rest => 0 :: (matchPositions rest).map (· + 4)
  | _ :: cs => (matchPositions cs).map (· + 1)
  | [] => []

/-- Modelled from the spec: the field-marker of the Literal Entry grammar,
the key name associated with command strings.  The code comments of
`src/fix_escaping.py` name this context as `cmd: '` (the `cmd` key of a
symbol entry); the script's regex does not contain it. -/
def fieldMarker : List Char := ['c', 'm', 'd', ':', ' ']

/-- Modelled from the spec: the text of a Literal Entry occurrence with
backslash-run length `n` — field-marker, quote, `n` backslashes, then the
at-risk prefix `fa`. -/
def literalEntry (n : Nat) : List Char :=
  fieldMarker ++ ['\''] ++ List.replicate n '\\' ++ ['f', 'a']

/-- Modelled from the spec: decides whether the Literal Entry grammar with
backslash-run length `n` (required to be at least one) matches the document
at position `i`. -/
def grammarOccAt (d : List Char) (i n : Nat) : Bool :=
  decide (1 ≤ n) &&
    decide ((d.drop i).take (fieldMarker.length + 1 + n + 2) = literalEntry n)

/-- Decides whether the Literal Entry grammar matches the document anywhere,
for any backslash-run length (the search ranges are exhaustive: a match needs
`i < d.length` and `n ≤ d.length`, see `grammarOccAt_false_of_none`). -/
def hasGrammarOcc (d : List Char) : Bool :=
  (List.range (d.length + 1)).any fun i =>
    (List.range (d.length + 1)).any fun n => grammarOccAt d i n

/-! ### Basic bridges between the pattern shape and `List.take` -/

/-- A list starts with `pat` exactly when its first four characters are `pat`. -/
lemma take4_iff (l : List Char) : l.take 4 = pat ↔ ∃ rest, l = pat ++ rest := by
  constructor
  · intro h
    exact ⟨l.drop 4, by rw [← h, List.take_append_drop]⟩
  · rintro ⟨rest, rfl⟩
    rfl

/-- A list whose head is not a quote does not start with `pat`. -/
lemma take4_cons_ne_quote (c : Char) (cs : List Char) (h : c ≠ '\'') :
    (c :: cs).take 4 ≠ pat := by
  intro hEq
  rw [List.take_succ_cons] at hEq
  exact h (List.head_eq_of_cons_eq hEq)

/-- Bridge from the mismatch hypothesis produced by functional induction to
the `take`-based formulation. -/
lemma take4_ne_of_shape (c : Char) (cs : List Char)
    (h : ∀ rest : List Char, c = '\'' → cs = '\\' :: 'f' :: 'a' :: rest → False) :
    (c :: cs).take 4 ≠ pat := by
  intro hEq
  obtain ⟨rest, hR⟩ := (take4_iff _).mp hEq
  injection hR with h1 h2
  exact h rest h1 h2

/-! ### Unfolding lemmas for the scan functions -/

lemma fixEsc_pat (rest : List Char) : fixEsc (pat ++ rest) = rep ++ fixEsc rest := rfl

lemma cntFa_pat (rest : List Char) : cntFa (pat ++ rest) = cntFa rest + 1 := rfl

lemma hasPat_pat (rest : List Char) : hasPat (pat ++ rest) = true := rfl

lemma hasPat_rep (x : List Char) : hasPat (rep ++ x) = hasPat x := rfl

lemma splitFa_pat (rest : List Char) : splitFa (pat ++ rest) = [] :: splitFa rest := rfl

lemma matchPositions_pat (rest : List Char) :
    matchPositions (pat ++ rest) = 0 :: (matchPositions rest).map (· + 4) := rfl

lemma fixEsc_cons_ne (c : Char) (cs : List Char) (h : (c :: cs).take 4 ≠ pat) :
    fixEsc (c :: cs) = c :: fixEsc cs := by
  rw [fixEsc.eq_def]
  split
  · rename_i rest heq
    exact absurd (by rw [heq]; rfl) h
  · rename_i heq
    cases heq
    rfl
  · rename_i heq
    exact absurd heq (List.cons_ne_nil c cs)

lemma cntFa_cons_ne (c : Char) (cs : List Char) (h : (c :: cs).take 4 ≠ pat) :
    cntFa (c :: cs) = cntFa cs := by
  rw [cntFa.eq_def]
  split
  · rename_i rest heq
    exact absurd (by rw [heq]; rfl) h
  · rename_i c' cs' heq
    injection heq with h1 h2
    rw [h2]
  · rename_i heq
    exact absurd heq (List.cons_ne_nil c cs)

lemma hasPat_cons_ne (c : Char) (cs : List Char) (h : (c :: cs).take 4 ≠ pat) :
    hasPat (c :: cs) = hasPat cs := by
  rw [hasPat.eq_def]
  split
  · rename_i rest heq
    exact absurd (by rw [heq]; rfl) h
  · rename_i c' cs' heq
    injection heq with h1 h2
    rw [h2]
  · rename_i heq
    exact absurd heq (List.cons_ne_nil c cs)

lemma matchPositions_cons_ne (c : Char) (cs : List Char) (h : (c :: cs).take 4 ≠ pat) :
    matchPositions (c :: cs) = (matchPositions cs).map (· + 1) := by
  rw [matchPositions.eq_def]
  split
  · rename_i rest heq
    exact absurd (by rw [heq]; rfl) h
  · rename_i c' cs' heq
    injection heq with h1 h2
    rw [h2]
  · rename_i heq
    exact absurd heq (List.cons_ne_nil c cs)

lemma splitFa_ne_nil (d : List Char) : splitFa d ≠ [] := by
  induction d using fixEsc.induct with
  | case1 rest ih =>
    rw [show ('\'' :: '\\' :: 'f' :: 'a' :: rest) = pat ++ rest from rfl, splitFa_pat]
    exact List.cons_ne_nil _ _
  | case2 c cs hshape ih =>
    rw [splitFa.eq_def]
    split
    · exact List.cons_ne_nil _ _
    · rename_i heq
      cases heq
      split
      · exact List.cons_ne_nil _ _
      · exact List.cons_ne_nil _ _
    · rename_i heq
      exact absurd heq (List.cons_ne_nil c cs)
  | case3 =>
    rw [splitFa]
    exact List.cons_ne_nil _ _

lemma splitFa_cons_ne (c : Char) (cs : List Char) (h : (c :: cs).take 4 ≠ pat)
    (s : List Char) (ss : List (List Char)) (hs : splitFa cs = s :: ss) :
    splitFa (c :: cs) = (c :: s) :: ss := by
  rw [splitFa.eq_def]
  split
  · rename_i rest heq
    exact absurd (by rw [heq]; rfl) h
  · rename_i heq
    cases heq
    rw [hs]
  · rename_i heq
    exact absurd heq (List.cons_ne_nil c cs)

@[simp] lemma fixEsc_nil : fixEsc [] = [] := rfl

@[simp] lemma cntFa_nil : cntFa [] = 0 := rfl

@[simp] lemma hasPat_nil : hasPat [] = false := rfl

/-! ### Appending across safe boundaries -/

lemma noQuote_cons (c : Char) (cs : List Char) :
    noQuote (c :: cs) = true ↔ c ≠ '\'' ∧ noQuote cs = true := by
  simp [noQuote]

/-- The scan copies a quote-free block unchanged and finds no match inside
it or overlapping its start (every match begins with a quote). -/
lemma noquote_append (m x : List Char) (h : noQuote m = true) :
    fixEsc (m ++ x) = m ++ fixEsc x ∧ cntFa (m ++ x) = cntFa x := by
  induction m with
  | nil => simp
  | cons c m ih =>
    obtain ⟨hc, hm⟩ := (noQuote_cons c m).mp h
    have hne : (c :: (m ++ x)).take 4 ≠ pat := take4_cons_ne_quote _ _ hc
    constructor
    · rw [List.cons_append, fixEsc_cons_ne _ _ hne, (ih hm).1, List.cons_append]
    · rw [List.cons_append, cntFa_cons_ne _ _ hne, (ih hm).2]

/-- A quote-free document is returned unchanged, with no substitution. -/
lemma noquote_id (m : List Char) (h : noQuote m = true) :
    fixEsc m = m ∧ cntFa m = 0 := by
  have h1 := (noquote_append m [] h).1
  have h2 := (noquote_append m [] h).2
  rw [List.append_nil, fixEsc_nil, List.append_nil] at h1
  rw [List.append_nil, cntFa_nil] at h2
  exact ⟨h1, h2⟩

/-- Decides that a list is empty or starts with a character other than a
backslash, `f` or `a` — the characters at positions 1, 2, 3 of `pat`.  No
match of the scan can straddle a boundary whose right side starts so. -/
def safeHead : List Char → Bool
  | [] => true
  | c :: _ => decide (c ≠ '\\') && decide (c ≠ 'f') && decide (c ≠ 'a')

/-- The scan distributes over an append whose right side has a safe head:
no match straddles the boundary, so the two sides are rewritten
independently and the substitution counts add. -/
lemma append_split (x y : List Char) (hy : safeHead y = true) :
    fixEsc (x ++ y) = fixEsc x ++ fixEsc y ∧ cntFa (x ++ y) = cntFa x + cntFa y := by
  induction x using fixEsc.induct with
  | case1 rest ih =>
    have hx : ('\'' :: '\\' :: 'f' :: 'a' :: rest) ++ y = pat ++ (rest ++ y) := by
      simp [pat]
    constructor
    · rw [hx, fixEsc_pat, ih.1,
        show fixEsc ('\'' :: '\\' :: 'f' :: 'a' :: rest) = rep ++ fixEsc rest from rfl]
      simp [List.append_assoc]
    · rw [hx, cntFa_pat, ih.2,
        show cntFa ('\'' :: '\\' :: 'f' :: 'a' :: rest) = cntFa rest + 1 from rfl]
      omega
  | case2 c cs hshape ih =>
    have hne : (c :: cs).take 4 ≠ pat := take4_ne_of_shape c cs hshape
    have hne2 : (c :: (cs ++ y)).take 4 ≠ pat := by
      by_cases hlen : 3 ≤ cs.length
      · intro hEq
        rw [List.take_succ_cons, List.take_append_of_le_length hlen] at hEq
        exact hne (by rw [List.take_succ_cons]; exact hEq)
      · intro hEq
        cases y with
        | nil => rw [List.append_nil] at hEq; exact hne hEq
        | cons c' ys =>
          simp only [safeHead, Bool.and_eq_true, decide_eq_true_eq] at hy
          obtain ⟨⟨hb, hf⟩, ha⟩ := hy
          obtain ⟨restp, hR⟩ := (take4_iff _).mp hEq
          rcases cs with _ | ⟨a1, cs1⟩
          · injection hR with e1 hR1
            injection hR1 with e2 _
            exact hb e2
          · rcases cs1 with _ | ⟨a2, cs2⟩
            · injection hR with e1 hR1
              injection hR1 with e2 hR2
              injection hR2 with e3 _
              exact hf e3
            · rcases cs2 with _ | ⟨a3, cs3⟩
              · injection hR with e1 hR1
                injection hR1 with e2 hR2
                injection hR2 with e3 hR3
                injection hR3 with e4 _
                exact ha e4
              · exact hlen (by simp)
    constructor
    · rw [List.cons_append, fixEsc_cons_ne _ _ hne2, ih.1, fixEsc_cons_ne _ _ hne,
        List.cons_append]
    · rw [List.cons_append, cntFa_cons_ne _ _ hne2, ih.2, cntFa_cons_ne _ _ hne]
  | case3 => simp

/-! ### The corrected document contains no match -/

lemma fixEsc_take1 (d : List Char) (h : (fixEsc d).take 1 = ['a']) :
    d.take 1 = ['a'] := by
  induction d using fixEsc.induct with
  | case1 rest ih =>
    rw [show fixEsc ('\'' :: '\\' :: 'f' :: 'a' :: rest) = rep ++ fixEsc rest from rfl,
      show ((rep ++ fixEsc rest).take 1) = ['\''] from rfl] at h
    exact absurd h (by decide)
  | case2 c cs hshape ih =>
    rw [fixEsc_cons_ne _ _ (take4_ne_of_shape c cs hshape)] at h
    simp only [List.take_succ_cons, List.take_zero] at h ⊢
    exact h
  | case3 => exact absurd h (by decide)

lemma fixEsc_take2 (d : List Char) (h : (fixEsc d).take 2 = ['f', 'a']) :
    d.take 2 = ['f', 'a'] := by
  induction d using fixEsc.induct with
  | case1 rest ih =>
    rw [show fixEsc ('\'' :: '\\' :: 'f' :: 'a' :: rest) = rep ++ fixEsc rest from rfl,
      show ((rep ++ fixEsc rest).take 2) = ['\'', '\\'] from rfl] at h
    exact absurd h (by decide)
  | case2 c cs hshape ih =>
    rw [fixEsc_cons_ne _ _ (take4_ne_of_shape c cs hshape)] at h
    simp only [List.take_succ_cons] at h ⊢
    injection h with h1 h2
    subst h1
    rw [fixEsc_take1 cs h2]
  | case3 => exact absurd h (by decide)

lemma fixEsc_take3 (d : List Char) (h : (fixEsc d).take 3 = ['\\', 'f', 'a']) :
    d.take 3 = ['\\', 'f', 'a'] := by
  induction d using fixEsc.induct with
  | case1 rest ih =>
    rw [show fixEsc ('\'' :: '\\' :: 'f' :: 'a' :: rest) = rep ++ fixEsc rest from rfl,
      show ((rep ++ fixEsc rest).take 3) = ['\'', '\\', '\\'] from rfl] at h
    exact absurd h (by decide)
  | case2 c cs hshape ih =>
    rw [fixEsc_cons_ne _ _ (take4_ne_of_shape c cs hshape)] at h
    simp only [List.take_succ_cons] at h ⊢
    injection h with h1 h2
    subst h1
    rw [fixEsc_take2 cs h2]
  | case3 => exact absurd h (by decide)

/-- The corrected document contains no occurrence of the four-character
pattern: every single-backslash occurrence was doubled, doubling creates no
new occurrence, and untouched text had none at those positions. -/
lemma hasPat_fixEsc (d : List Char) : hasPat (fixEsc d) = false := by
  induction d using fixEsc.induct with
  | case1 rest ih =>
    rw [show fixEsc ('\'' :: '\\' :: 'f' :: 'a' :: rest) = rep ++ fixEsc rest from rfl,
      hasPat_rep]
    exact ih
  | case2 c cs hshape ih =>
    have hne : (c :: cs).take 4 ≠ pat := take4_ne_of_shape c cs hshape
    rw [fixEsc_cons_ne _ _ hne]
    have hne3 : (c :: fixEsc cs).take 4 ≠ pat := by
      intro hEq
      rw [List.take_succ_cons] at hEq
      have h1 : c = '\'' := List.head_eq_of_cons_eq hEq
      have h2 : (fixEsc cs).take 3 = ['\\', 'f', 'a'] := List.tail_eq_of_cons_eq hEq
      exact hne (by rw [List.take_succ_cons, h1, fixEsc_take3 cs h2]; rfl)
    rw [hasPat_cons_ne _ _ hne3]
    exact ih
  | case3 => rfl

/-- A document with no occurrence of the pattern is returned unchanged,
with no substitution. -/
lemma fixEsc_of_hasPat_false (d : List Char) (h : hasPat d = false) :
    fixEsc d = d ∧ cntFa d = 0 := by
  induction d using fixEsc.induct with
  | case1 rest ih =>
    rw [show hasPat ('\'' :: '\\' :: 'f' :: 'a' :: rest) = true from rfl] at h
    simp at h
  | case2 c cs hshape ih =>
    have hne : (c :: cs).take 4 ≠ pat := take4_ne_of_shape c cs hshape
    rw [hasPat_cons_ne _ _ hne] at h
    exact ⟨by rw [fixEsc_cons_ne _ _ hne, (ih h).1], by rw [cntFa_cons_ne _ _ hne, (ih h).2]⟩
  | case3 => exact ⟨rfl, rfl⟩

lemma hasPat_append_pat (a b : List Char) : hasPat (a ++ (pat ++ b)) = true := by
  induction a with
  | nil => rw [List.nil_append, hasPat_pat]
  | cons c a ih =>
    by_cases hc : (c :: (a ++ (pat ++ b))).take 4 = pat
    · obtain ⟨r, hr⟩ := (take4_iff _).mp hc
      rw [List.cons_append, hr, hasPat_pat]
    · rw [List.cons_append, hasPat_cons_ne _ _ hc]
      exact ih

/-- `hasPat` decides exactly the presence of the four-character pattern as a
contiguous run somewhere in the document. -/
lemma hasPat_iff (d : List Char) : hasPat d = true ↔ ∃ a b, d = a ++ pat ++ b := by
  constructor
  · intro h
    induction d using fixEsc.induct with
    | case1 rest ih => exact ⟨[], rest, rfl⟩
    | case2 c cs hshape ih =>
      have hne : (c :: cs).take 4 ≠ pat := take4_ne_of_shape c cs hshape
      rw [hasPat_cons_ne _ _ hne] at h
      obtain ⟨a, b, hab⟩ := ih h
      exact ⟨c :: a, b, by rw [hab]; simp⟩
    | case3 => simp at h
  · rintro ⟨a, b, rfl⟩
    rw [List.append_assoc]
    exact hasPat_append_pat a b

/-- The scan never changes the first character of the document. -/
lemma fixEsc_head (d : List Char) : (fixEsc d).head? = d.head? := by
  induction d using fixEsc.induct with
  | case1 rest ih => rfl
  | case2 c cs hshape ih =>
    rw [fixEsc_cons_ne _ _ (take4_ne_of_shape c cs hshape)]
    rfl
  | case3 => rfl

/-! ### The split decomposition: output rewrites exactly the matches -/

lemma joinWith_single (sep s : List Char) : joinWith sep [s] = s := rfl

lemma joinWith_cons_cons (sep s t : List Char) (ss : List (List Char)) :
    joinWith sep (s :: t :: ss) = s ++ sep ++ joinWith sep (t :: ss) := rfl

lemma joinWith_cons_head (sep : List Char) (c : Char) (s : List Char)
    (ss : List (List Char)) :
    joinWith sep ((c :: s) :: ss) = c :: joinWith sep (s :: ss) := by
  cases ss with
  | nil => rfl
  | cons t ss => simp [joinWith_cons_cons]

lemma joinWith_nil_cons (sep s : List Char) (ss : List (List Char)) :
    joinWith sep ([] :: s :: ss) = sep ++ joinWith sep (s :: ss) := by
  rw [joinWith_cons_cons]
  simp

lemma splitFa_head (d : List Char) : ∃ s ss, splitFa d = s :: ss := by
  cases hfa : splitFa d with
  | nil => exact absurd hfa (splitFa_ne_nil d)
  | cons s ss => exact ⟨s, ss, rfl⟩

/-- The split decomposition: the document is its unmatched segments joined
by the pattern, the corrected document is the same segments joined by the
replacement, and no segment contains the pattern. -/
lemma splitFa_spec (d : List Char) :
    joinWith pat (splitFa d) = d ∧ joinWith rep (splitFa d) = fixEsc d ∧
      ∀ s, s ∈ splitFa d → hasPat s = false := by
  induction d using fixEsc.induct with
  | case1 rest ih =>
    obtain ⟨j1, j2, j3⟩ := ih
    obtain ⟨s, ss, hs⟩ := splitFa_head rest
    refine ⟨?_, ?_, ?_⟩
    · rw [show ('\'' :: '\\' :: 'f' :: 'a' :: rest) = pat ++ rest from rfl, splitFa_pat, hs,
        joinWith_nil_cons, ← hs, j1]
    · rw [show ('\'' :: '\\' :: 'f' :: 'a' :: rest) = pat ++ rest from rfl, splitFa_pat, hs,
        joinWith_nil_cons, ← hs, j2, fixEsc_pat]
    · intro t ht
      rw [show ('\'' :: '\\' :: 'f' :: 'a' :: rest) = pat ++ rest from rfl, splitFa_pat] at ht
      rcases List.mem_cons.mp ht with h | h
      · rw [h]
        rfl
      · exact j3 t h
  | case2 c cs hshape ih =>
    have hne : (c :: cs).take 4 ≠ pat := take4_ne_of_shape c cs hshape
    obtain ⟨j1, j2, j3⟩ := ih
    obtain ⟨s, ss, hs⟩ := splitFa_head cs
    have hsplit := splitFa_cons_ne c cs hne s ss hs
    have hpre : ∃ r, cs = s ++ r := by
      cases ss with
      | nil =>
        refine ⟨[], ?_⟩
        rw [← j1, hs, joinWith_single, List.append_nil]
      | cons t ss' =>
        refine ⟨pat ++ joinWith pat (t :: ss'), ?_⟩
        rw [← j1, hs, joinWith_cons_cons]
        simp [List.append_assoc]
    have hcs : (c :: s).take 4 ≠ pat := by
      intro hEq
      obtain ⟨r, hr⟩ := hpre
      have hlen : 4 ≤ (c :: s).length := by
        have h4 := congrArg List.length hEq
        rw [List.length_take, show pat.length = 4 from rfl] at h4
        simp only [List.length_cons] at h4 ⊢
        omega
      apply hne
      rw [hr, ← List.cons_append, List.take_append_of_le_length hlen, hEq]
    refine ⟨?_, ?_, ?_⟩
    · rw [hsplit, joinWith_cons_head, ← hs, j1]
    · rw [hsplit, joinWith_cons_head, ← hs, j2, fixEsc_cons_ne _ _ hne]
    · intro t ht
      rw [hsplit] at ht
      rcases List.mem_cons.mp ht with h | h
      · rw [h, hasPat_cons_ne _ _ hcs]
        exact j3 s (by rw [hs]; exact List.mem_cons_self s ss)
      · exact j3 t (by rw [hs]; exact List.mem_cons_of_mem _ h)
  | case3 =>
    refine ⟨rfl, rfl, ?_⟩
    intro s hsm
    rw [show splitFa [] = [[]] from rfl] at hsm
    rcases List.mem_singleton.mp hsm with rfl
    rfl

/-! ### The substitution count counts the pattern positions -/

lemma countPat_cons (c : Char) (cs : List Char) :
    countPat (c :: cs) = (if (c :: cs).take 4 = pat then 1 else 0) + countPat cs := rfl

/-- The substitution count of the scan equals the number of positions at
which the pattern occurs (occurrences cannot overlap, so the leftmost scan
misses none of them). -/
lemma cntFa_eq_countPat (d : List Char) : cntFa d = countPat d := by
  induction d using fixEsc.induct with
  | case1 rest ih =>
    have h0 : ('\'' :: '\\' :: 'f' :: 'a' :: rest).take 4 = pat :=
      (take4_iff _).mpr ⟨rest, rfl⟩
    rw [show cntFa ('\'' :: '\\' :: 'f' :: 'a' :: rest) = cntFa rest + 1 from rfl,
      countPat_cons, if_pos h0, countPat_cons,
      if_neg (take4_cons_ne_quote _ _ (by decide)), countPat_cons,
      if_neg (take4_cons_ne_quote _ _ (by decide)), countPat_cons,
      if_neg (take4_cons_ne_quote _ _ (by decide)), ih]
    omega
  | case2 c cs hshape ih =>
    have hne : (c :: cs).take 4 ≠ pat := take4_ne_of_shape c cs hshape
    rw [cntFa_cons_ne _ _ hne, countPat_cons, if_neg hne, ih]
    omega
  | case3 => rfl

/-! ### Match positions are real, ordered and non-overlapping -/

lemma matchPositions_sorted (d : List Char) :
    List.Chain' (fun i j => i + 4 ≤ j) (matchPositions d) := by
  induction d using fixEsc.induct with
  | case1 rest ih =>
    rw [show matchPositions ('\'' :: '\\' :: 'f' :: 'a' :: rest)
        = 0 :: (matchPositions rest).map (· + 4) from rfl, List.chain'_cons']
    constructor
    · intro b hb
      cases hmp : matchPositions rest with
      | nil => simp [hmp] at hb
      | cons q l =>
        simp [hmp] at hb
        omega
    · rw [List.chain'_map]
      exact ih.imp (by omega)
  | case2 c cs hshape ih =>
    rw [matchPositions_cons_ne _ _ (take4_ne_of_shape c cs hshape), List.chain'_map]
    exact ih.imp (by omega)
  | case3 =>
    rw [show matchPositions [] = [] from rfl]
    exact List.chain'_nil

lemma matchPositions_length (d : List Char) : (matchPositions d).length = cntFa d := by
  induction d using fixEsc.induct with
  | case1 rest ih =>
    rw [show matchPositions ('\'' :: '\\' :: 'f' :: 'a' :: rest)
        = 0 :: (matchPositions rest).map (· + 4) from rfl,
      show cntFa ('\'' :: '\\' :: 'f' :: 'a' :: rest) = cntFa rest + 1 from rfl]
    simp [ih]
  | case2 c cs hshape ih =>
    have hne : (c :: cs).take 4 ≠ pat := take4_ne_of_shape c cs hshape
    rw [matchPositions_cons_ne _ _ hne, cntFa_cons_ne _ _ hne, List.length_map, ih]
  | case3 => rfl

lemma matchPositions_mem (d : List Char) :
    ∀ p, p ∈ matchPositions d → (d.drop p).take 4 = pat := by
  induction d using fixEsc.induct with
  | case1 rest ih =>
    intro p hp
    rw [show matchPositions ('\'' :: '\\' :: 'f' :: 'a' :: rest)
        = 0 :: (matchPositions rest).map (· + 4) from rfl] at hp
    rcases List.mem_cons.mp hp with h | h
    · subst h
      rw [List.drop_zero]
      exact (take4_iff _).mpr ⟨rest, rfl⟩
    · obtain ⟨q, hq, rfl⟩ := List.mem_map.mp h
      rw [show ('\'' :: '\\' :: 'f' :: 'a' :: rest) = pat ++ rest from rfl,
        show q + 4 = pat.length + q from by rw [show pat.length = 4 from rfl]; omega,
        List.drop_append]
      exact ih q hq
  | case2 c cs hshape ih =>
    intro p hp
    rw [matchPositions_cons_ne _ _ (take4_ne_of_shape c cs hshape)] at hp
    obtain ⟨q, hq, rfl⟩ := List.mem_map.mp hp
    rw [List.drop_succ_cons]
    exact ih q hq
  | case3 =>
    intro p hp
    rw [show matchPositions [] = [] from rfl] at hp
    simp at hp

/-! ### Bounds for the Literal Entry grammar search -/

lemma literalEntry_length (n : Nat) : (literalEntry n).length = n + 8 := by
  simp only [literalEntry, fieldMarker, List.length_append, List.length_replicate,
    List.length_cons, List.length_nil]
  omega

lemma grammarOccAt_true_iff (d : List Char) (i n : Nat) :
    grammarOccAt d i n = true ↔
      1 ≤ n ∧ (d.drop i).take (fieldMarker.length + 1 + n + 2) = literalEntry n := by
  simp [grammarOccAt]

lemma grammarOccAt_bounds (d : List Char) (i n : Nat)
    (h : grammarOccAt d i n = true) : i < d.length ∧ n ≤ d.length := by
  obtain ⟨h1, h2⟩ := (grammarOccAt_true_iff d i n).mp h
  have hlen := congrArg List.length h2
  rw [List.length_take, List.length_drop, literalEntry_length,
    show fieldMarker.length = 5 from rfl] at hlen
  omega

/-- The bounded search of `hasGrammarOcc` is complete: any grammar match at
any position and any run length is found. -/
lemma hasGrammarOcc_of (d : List Char) (i n : Nat)
    (h : grammarOccAt d i n = true) : hasGrammarOcc d = true := by
  obtain ⟨hi, hn⟩ := grammarOccAt_bounds d i n h
  exact List.any_eq_true.mpr
    ⟨i, List.mem_range.mpr (by omega),
      List.any_eq_true.mpr ⟨n, List.mem_range.mpr (by omega), h⟩⟩

/-- Contrapositive form: if the bounded search finds nothing, the grammar
matches nowhere, for any position and any run length. -/
lemma grammarOccAt_false_of_none (d : List Char) (h : hasGrammarOcc d = false) :
    ∀ i n, grammarOccAt d i n = false := by
  intro i n
  cases hga : grammarOccAt d i n with
  | false => rfl
  | true =>
    rw [hasGrammarOcc_of d i n hga] at h
    simp at h

/-! ### Quote-free blocks and a reusable chunk lemma -/

lemma noQuote_append_of (a b : List Char) (ha : noQuote a = true)
    (hb : noQuote b = true) : noQuote (a ++ b) = true := by
  induction a with
  | nil => exact hb
  | cons c a ih =>
    obtain ⟨hc, ha'⟩ := (noQuote_cons c a).mp ha
    exact (noQuote_cons c (a ++ b)).mpr ⟨hc, ih ha'⟩

lemma noQuote_replicate_bs (m : Nat) : noQuote (List.replicate m '\\') = true := by
  induction m with
  | zero => rfl
  | succ m ih =>
    rw [List.replicate_succ]
    exact (noQuote_cons _ _).mpr ⟨by decide, ih⟩

/-- A chunk of the form  safe-headed quote-free prefix, quote, then a block
of at least three quote-free characters not starting with backslash-`fa`,
contains no match and lets no match straddle its boundaries: the scan copies
it verbatim and processes the two sides independently. -/
lemma chunk_split (s : List Char) (p : Char) (P B t : List Char)
    (hp1 : p ≠ '\\') (hp2 : p ≠ 'f') (hp3 : p ≠ 'a')
    (hP : noQuote (p :: P) = true) (hB : noQuote B = true)
    (hBlen : 3 ≤ B.length) (hB3 : B.take 3 ≠ ['\\', 'f', 'a']) :
    fixEsc (s ++ ((p :: P) ++ ('\'' :: B)) ++ t)
        = fixEsc s ++ ((p :: P) ++ ('\'' :: B)) ++ fixEsc t ∧
      cntFa (s ++ ((p :: P) ++ ('\'' :: B)) ++ t) = cntFa s + cntFa t := by
  have hassoc : s ++ ((p :: P) ++ ('\'' :: B)) ++ t
      = s ++ ((p :: P) ++ ('\'' :: (B ++ t))) := by
    simp [List.append_assoc]
  have hsafe : safeHead ((p :: P) ++ ('\'' :: (B ++ t))) = true := by
    simp only [List.cons_append, safeHead, Bool.and_eq_true, decide_eq_true_eq]
    exact ⟨⟨hp1, hp2⟩, hp3⟩
  obtain ⟨ha1, ha2⟩ := append_split s ((p :: P) ++ ('\'' :: (B ++ t))) hsafe
  obtain ⟨hb1, hb2⟩ := noquote_append (p :: P) ('\'' :: (B ++ t)) hP
  have hq : ('\'' :: (B ++ t)).take 4 ≠ pat := by
    intro hEq
    rw [List.take_succ_cons] at hEq
    have h2 : (B ++ t).take 3 = ['\\', 'f', 'a'] := List.tail_eq_of_cons_eq hEq
    rw [List.take_append_of_le_length hBlen] at h2
    exact hB3 h2
  have hc1 := fixEsc_cons_ne '\'' (B ++ t) hq
  have hc2 := cntFa_cons_ne '\'' (B ++ t) hq
  obtain ⟨hd1, hd2⟩ := noquote_append B t hB
  constructor
  · rw [hassoc, ha1, hb1, hc1, hd1]
    simp [List.append_assoc]
  · rw [hassoc, ha2, hb2, hc2, hd2]

/-- The Literal Entry chunk with backslash-run length `n`. -/
def irregularChunk (n : Nat) : List Char :=
  fieldMarker ++ '\'' :: (List.replicate n '\\' ++ ['f', 'a'])

/-- The field-marker of the unrelated field of Scenario 3. -/
def otherMarker : List Char := ['o', 't', 'h', 'e', 'r', ':', ' ']

/-- The command-name characters of the unrelated literal of Scenario 3. -/
def usepackage : List Char := ['u', 's', 'e', 'p', 'a', 'c', 'k', 'a', 'g', 'e']

/-! ### Claim C1 -/

/-- Claim C1 (counterexample): the four-character document quote, backslash,
`f`, `a` matches the Literal Entry grammar nowhere — it has no field-marker —
yet the corrector rewrites it.  So the corrector does not rewrite only
occurrences of the full grammar. -/
theorem c1_counterexample :
    new_content ['\'', '\\', 'f', 'a'] ≠ ['\'', '\\', 'f', 'a'] ∧
      hasGrammarOcc ['\'', '\\', 'f', 'a'] = false := by
  decide

/-- Claim C1 (amended): the corrector rewrites exactly the occurrences of
the four-character pattern quote, one backslash, `fa` — with no field-marker
scoping — and every character outside those occurrences is byte-identical:
the document is its pattern-free segments joined by the pattern and the
output is the same segments joined by the five-character replacement. -/
theorem c1_locality (d : List Char) :
    joinWith pat (splitFa d) = d ∧ joinWith rep (splitFa d) = new_content d ∧
      ∀ s, s ∈ splitFa d → hasPat s = false :=
  splitFa_spec d

/-- Witness for `c1_locality` on the concrete document `a: '\fa-x'`. -/
theorem c1_locality_witness :
    joinWith pat (splitFa ['a', ':', ' ', '\'', '\\', 'f', 'a', '-', 'x', '\''])
        = ['a', ':', ' ', '\'', '\\', 'f', 'a', '-', 'x', '\''] ∧
      joinWith rep (splitFa ['a', ':', ' ', '\'', '\\', 'f', 'a', '-', 'x', '\''])
        = new_content ['a', ':', ' ', '\'', '\\', 'f', 'a', '-', 'x', '\''] ∧
      hasPat ['a', ':', ' '] = false :=
  ⟨(c1_locality ['a', ':', ' ', '\'', '\\', 'f', 'a', '-', 'x', '\'']).1,
    (c1_locality ['a', ':', ' ', '\'', '\\', 'f', 'a', '-', 'x', '\'']).2.1,
    (c1_locality ['a', ':', ' ', '\'', '\\', 'f', 'a', '-', 'x', '\'']).2.2
      ['a', ':', ' '] (by decide)⟩

/-! ### Claim C2 -/

/-- Claim C2: idempotence.  Correcting the output of a prior correction
yields zero substitutions and a byte-identical document. -/
theorem c2_idempotent (d : List Char) :
    new_content (new_content d) = new_content d ∧
      occurrences_changed (new_content d) = 0 :=
  fixEsc_of_hasPat_false (fixEsc d) (hasPat_fixEsc d)

/-! ### Claim C3 -/

/-- Claim C3: an occurrence with backslash-run length one — field-marker,
quote, one backslash, `fa`, quote-free literal content `u`, closing quote —
is rewritten to exactly two backslashes; the field-marker, the opening
quote, the trailing content `u` are preserved byte-for-byte, the closing
quote survives as the head of the processed tail, the substitution is
counted exactly once, and the rest of the document is processed
independently. -/
theorem c3_single_backslash_fixed (s u t : List Char) (hu : noQuote u = true) :
    new_content (s ++ (fieldMarker ++ pat ++ u ++ ('\'' :: t))) =
        new_content s ++ (fieldMarker ++ rep ++ u ++ new_content ('\'' :: t)) ∧
      occurrences_changed (s ++ (fieldMarker ++ pat ++ u ++ ('\'' :: t))) =
        occurrences_changed s + 1 + occurrences_changed ('\'' :: t) ∧
      (new_content ('\'' :: t)).head? = some '\'' := by
  have hsafe : safeHead (fieldMarker ++ pat ++ u ++ ('\'' :: t)) = true := rfl
  obtain ⟨ha1, ha2⟩ := append_split s (fieldMarker ++ pat ++ u ++ ('\'' :: t)) hsafe
  have hR : fieldMarker ++ pat ++ u ++ ('\'' :: t)
      = fieldMarker ++ (pat ++ (u ++ ('\'' :: t))) := by
    simp [List.append_assoc]
  obtain ⟨hb1, hb2⟩ := noquote_append fieldMarker (pat ++ (u ++ ('\'' :: t))) (by decide)
  obtain ⟨hc1, hc2⟩ := noquote_append u ('\'' :: t) hu
  refine ⟨?_, ?_, ?_⟩
  · show fixEsc _ = _
    rw [ha1, hR, hb1, fixEsc_pat, hc1]
    show _ = fixEsc s ++ (fieldMarker ++ rep ++ u ++ fixEsc ('\'' :: t))
    simp [List.append_assoc]
  · show cntFa _ = _
    rw [ha2, hR, hb2, cntFa_pat, hc2]
    show _ = cntFa s + 1 + cntFa ('\'' :: t)
    omega
  · show (fixEsc ('\'' :: t)).head? = some '\''
    rw [fixEsc_head]
    rfl

/-- Witness for `c3_single_backslash_fixed` at `cmd: '\fa-home'` standing
alone (Scenario 1 with the code's field-marker). -/
theorem c3_witness :
    noQuote ['-', 'h', 'o', 'm', 'e'] = true ∧
      (new_content ([] ++ (fieldMarker ++ pat ++ ['-', 'h', 'o', 'm', 'e'] ++ ('\'' :: []))) =
          new_content [] ++
            (fieldMarker ++ rep ++ ['-', 'h', 'o', 'm', 'e'] ++ new_content ('\'' :: [])) ∧
        occurrences_changed
            ([] ++ (fieldMarker ++ pat ++ ['-', 'h', 'o', 'm', 'e'] ++ ('\'' :: []))) =
          occurrences_changed [] + 1 + occurrences_changed ('\'' :: []) ∧
        (new_content ('\'' :: [])).head? = some '\'') :=
  ⟨by decide, c3_single_backslash_fixed [] ['-', 'h', 'o', 'm', 'e'] [] (by decide)⟩

/-! ### Claim C4 -/

/-- Claim C4 (counterexample): a lone Literal Entry with backslash-run
length three is left unchanged — but nothing is surfaced to the caller: the
script has no diagnostic channel, so the claimed diagnostic does not exist. -/
theorem c4_counterexample :
    new_content (irregularChunk 3) = irregularChunk 3 ∧
      grammarOccAt (irregularChunk 3) 0 3 = true ∧
      surfaced_diagnostics (irregularChunk 3) = [] := by
  refine ⟨by decide, by decide, rfl⟩

/-- Claim C4 (amended): an occurrence with backslash-run length at least
three is left byte-identical and not counted, the rest of the document is
processed independently — and no diagnostic is surfaced, because the script
has no reporting channel at all. -/
theorem c4_irregular_run_unchanged (s t : List Char) (n : Nat) (hn : 3 ≤ n) :
    new_content (s ++ irregularChunk n ++ t) =
        new_content s ++ irregularChunk n ++ new_content t ∧
      occurrences_changed (s ++ irregularChunk n ++ t) =
        occurrences_changed s + occurrences_changed t ∧
      surfaced_diagnostics (s ++ irregularChunk n ++ t) = [] := by
  have hBlen : 3 ≤ (List.replicate n '\\' ++ ['f', 'a']).length := by
    simp only [List.length_append, List.length_replicate, List.length_cons,
      List.length_nil]
    omega
  have hB3 : (List.replicate n '\\' ++ ['f', 'a']).take 3 ≠ ['\\', 'f', 'a'] := by
    obtain ⟨k, rfl⟩ := Nat.exists_eq_add_of_le hn
    rw [List.replicate_add, show List.replicate 3 '\\' = ['\\', '\\', '\\'] from rfl,
      List.append_assoc, List.take_append_of_le_length (by decide)]
    decide
  have hB : noQuote (List.replicate n '\\' ++ ['f', 'a']) = true :=
    noQuote_append_of _ _ (noQuote_replicate_bs n) (by decide)
  have h := chunk_split s 'c' ['m', 'd', ':', ' '] (List.replicate n '\\' ++ ['f', 'a']) t
    (by decide) (by decide) (by decide) (by decide) hB hBlen hB3
  exact ⟨h.1, h.2, rfl⟩

/-- Witness for `c4_irregular_run_unchanged` at run length exactly three. -/
theorem c4_witness :
    (3 : Nat) ≤ 3 ∧
      (new_content ([] ++ irregularChunk 3 ++ []) =
          new_content [] ++ irregularChunk 3 ++ new_content [] ∧
        occurrences_changed ([] ++ irregularChunk 3 ++ []) =
          occurrences_changed [] + occurrences_changed [] ∧
        surfaced_diagnostics ([] ++ irregularChunk 3 ++ []) = []) :=
  ⟨by decide, c4_irregular_run_unchanged [] [] 3 (by decide)⟩

/-! ### Claim C5 -/

/-- Claim C5 (counterexample): after correction, a Literal Entry occurrence
with backslash-run length four survives unchanged — an eligible occurrence
whose run is neither two nor one — so not every eligible occurrence ends up
with exactly two backslashes. -/
theorem c5_counterexample :
    new_content (irregularChunk 4) = irregularChunk 4 ∧
      grammarOccAt (new_content (irregularChunk 4)) 0 4 = true ∧
      grammarOccAt (new_content (irregularChunk 4)) 0 2 = false := by
  refine ⟨by decide, by decide, by decide⟩

/-- Claim C5 (amended): after one application of the corrector no eligible
occurrence with backslash-run length exactly one remains anywhere in the
output; runs of length two stay and runs of length three or more may
persist. -/
theorem c5_no_single_run_after (d : List Char) (i : Nat) :
    grammarOccAt (new_content d) i 1 = false := by
  cases hga : grammarOccAt (new_content d) i 1 with
  | false => rfl
  | true =>
    obtain ⟨h1, h2⟩ := (grammarOccAt_true_iff _ i 1).mp hga
    have hdec : (new_content d).drop i
        = ((new_content d).drop i).take (fieldMarker.length + 1 + 1 + 2)
            ++ ((new_content d).drop i).drop (fieldMarker.length + 1 + 1 + 2) :=
      (List.take_append_drop _ _).symm
    rw [h2] at hdec
    have hfull : new_content d = (new_content d).take i ++ ((new_content d).drop i) :=
      (List.take_append_drop _ _).symm
    have hle : literalEntry 1 = fieldMarker ++ pat := by decide
    have htrue : hasPat (new_content d) = true := by
      rw [hfull, hdec, hle]
      exact (hasPat_iff _).mpr
        ⟨(new_content d).take i ++ fieldMarker,
          ((new_content d).drop i).drop (fieldMarker.length + 1 + 1 + 2),
          by simp [List.append_assoc]⟩
    have hf : hasPat (new_content d) = false := hasPat_fixEsc d
    rw [hf] at htrue
    exact absurd htrue (by decide)

/-! ### Claim C6 -/

/-- Claim C6 (counterexample): the document `x: '\fa` contains no Literal
Entry occurrence at all — its field-marker is not the command key — so it
has exactly zero grammar occurrences with run length one, yet the corrector
reports one change. -/
theorem c6_counterexample :
    hasGrammarOcc ['x', ':', ' ', '\'', '\\', 'f', 'a'] = false ∧
      occurrences_changed ['x', ':', ' ', '\'', '\\', 'f', 'a'] = 1 := by
  decide

/-- Claim C6 (amended): the reported count equals the number of positions at
which the four-character pattern quote, one backslash, `fa` occurs — every
such occurrence has backslash-run length one, but no field-marker scoping is
applied. -/
theorem c6_count_eq_pattern_occurrences (d : List Char) :
    occurrences_changed d = countPat d :=
  cntFa_eq_countPat d

/-! ### Claim C7 -/

/-- Claim C7: an occurrence with backslash-run length exactly two is left
byte-identical, contributes nothing to the count, and the rest of the
document is processed independently. -/
theorem c7_double_backslash_untouched (s t : List Char) :
    new_content (s ++ (fieldMarker ++ ('\'' :: ['\\', '\\', 'f', 'a'])) ++ t) =
        new_content s ++ (fieldMarker ++ ('\'' :: ['\\', '\\', 'f', 'a'])) ++ new_content t ∧
      occurrences_changed (s ++ (fieldMarker ++ ('\'' :: ['\\', '\\', 'f', 'a'])) ++ t) =
        occurrences_changed s + occurrences_changed t :=
  chunk_split s 'c' ['m', 'd', ':', ' '] ['\\', '\\', 'f', 'a'] t
    (by decide) (by decide) (by decide) (by decide) (by decide) (by decide) (by decide)

/-! ### Claim C8 -/

/-- Claim C8: an unrelated-field literal — the field-marker `other: `
followed by a quoted command that is not the at-risk prefix, here
`usepackage` — is left byte-identical whatever its backslash count, and
contributes nothing to the count. -/
theorem c8_unrelated_field_untouched (s t : List Char) (n : Nat) :
    new_content (s ++ (otherMarker ++ ('\'' :: (List.replicate n '\\' ++ usepackage))) ++ t) =
        new_content s ++ (otherMarker ++ ('\'' :: (List.replicate n '\\' ++ usepackage)))
          ++ new_content t ∧
      occurrences_changed
          (s ++ (otherMarker ++ ('\'' :: (List.replicate n '\\' ++ usepackage))) ++ t) =
        occurrences_changed s + occurrences_changed t := by
  have hBlen : 3 ≤ (List.replicate n '\\' ++ usepackage).length := by
    simp only [List.length_append, List.length_replicate, usepackage, List.length_cons,
      List.length_nil]
    omega
  have hB3 : (List.replicate n '\\' ++ usepackage).take 3 ≠ ['\\', 'f', 'a'] := by
    rcases n with _ | n
    · decide
    · rcases n with _ | n
      · decide
      · simp only [List.replicate_succ, List.cons_append]
        intro h
        rw [List.take_succ_cons, List.take_succ_cons] at h
        injection h with e1 h'
        injection h' with e2 _
        exact absurd e2 (by decide)
  have hB : noQuote (List.replicate n '\\' ++ usepackage) = true :=
    noQuote_append_of _ _ (noQuote_replicate_bs n) (by decide)
  exact chunk_split s 'o' ['t', 'h', 'e', 'r', ':', ' ']
    (List.replicate n '\\' ++ usepackage) t
    (by decide) (by decide) (by decide) (by decide) hB hBlen hB3

/-! ### Claim C9 -/

/-- Claim C9: the corrector is a pure function of the document (two
invocations agree definitionally), and its matches are processed in
left-to-right document order: the match positions are strictly increasing
with gaps of at least four — so the edits never overlap — every reported
position really carries the pattern, and the count equals the number of
matched positions. -/
theorem c9_deterministic_ordered (d : List Char) :
    List.Chain' (fun i j => i + 4 ≤ j) (matchPositions d) ∧
      occurrences_changed d = (matchPositions d).length ∧
      ∀ p, p ∈ matchPositions d → (d.drop p).take 4 = pat :=
  ⟨matchPositions_sorted d, (matchPositions_length d).symm, matchPositions_mem d⟩

/-- Witness for `c9_deterministic_ordered` on a document with one match. -/
theorem c9_witness :
    List.Chain' (fun i j => i + 4 ≤ j) (matchPositions ['\'', '\\', 'f', 'a', 'z']) ∧
      occurrences_changed ['\'', '\\', 'f', 'a', 'z'] =
        (matchPositions ['\'', '\\', 'f', 'a', 'z']).length ∧
      ((['\'', '\\', 'f', 'a', 'z'].drop 0).take 4 = pat) :=
  ⟨(c9_deterministic_ordered ['\'', '\\', 'f', 'a', 'z']).1,
    (c9_deterministic_ordered ['\'', '\\', 'f', 'a', 'z']).2.1,
    (c9_deterministic_ordered ['\'', '\\', 'f', 'a', 'z']).2.2 0 (by decide)⟩

/-! ### Claim C10 -/

/-- Claim C10: a document containing no occurrence of quote, one backslash,
`fa` is returned byte-identical with a zero count; in particular a
double-quoted at-risk literal is never modified. -/
theorem c10_no_pattern_no_change (d : List Char) (h : hasPat d = false) :
    new_content d = d ∧ occurrences_changed d = 0 :=
  fixEsc_of_hasPat_false d h

/-- Witness for `c10_no_pattern_no_change` on the double-quoted literal
`"\fa"`. -/
theorem c10_witness :
    hasPat ['"', '\\', 'f', 'a', '"'] = false ∧
      (new_content ['"', '\\', 'f', 'a', '"'] = ['"', '\\', 'f', 'a', '"'] ∧
        occurrences_changed ['"', '\\', 'f', 'a', '"'] = 0) :=
  ⟨by decide, c10_no_pattern_no_change ['"', '\\', 'f', 'a', '"'] (by decide)⟩
